import Mathlib

/-!
Verification of the text-recognize OCR service core against its specification.

The Python sources under python_backend are shallowly embedded below:
pure fragments become Lean functions over Nat, Int, Rat, Char and String;
floats are modelled by Rat; external collaborators (the OneOCR engine,
OpenCV, the BLAKE2b digest, the skimage SSIM score) are parameters of the
embedding.  All definitions are executable.
-/

set_option allowUnsafeReducibility true
attribute [semireducible] Rat.mul Rat.add Rat.div Rat.sub Rat.neg Rat.inv Nat.gcd

namespace TextRecognize

/-! ## Python string primitives -/

/-- Whitespace characters recognised by the Python str.strip and str.split
defaults (space, tab, newline, carriage return, vertical tab, form feed). -/
def pyIsSpace (c : Char) : Bool :=
  c = ' ' || c = '\t' || c = '\n' || c = '\x0d' || c = '\x0b' || c = '\x0c'

/-- Python str.strip on a character list: drop whitespace from both ends. -/
def pyStripList (l : List Char) : List Char :=
  ((l.dropWhile pyIsSpace).reverse.dropWhile pyIsSpace).reverse

/-- Python str.strip. -/
def pyStrip (s : String) : String :=
  ⟨pyStripList s.data⟩

/-- Python str.lower, character by character (ASCII model). -/
def pyLower (s : String) : String :=
  ⟨s.data.map Char.toLower⟩

/-- Helper for the Python whitespace split: walks the characters keeping the
current in-progress word reversed in the accumulator. -/
def pySplitWsGo : List Char → List Char → List String
  | [], acc => if acc = [] then [] else [⟨acc.reverse⟩]
  | c :: rest, acc =>
    if pyIsSpace c then
      if acc = [] then pySplitWsGo rest []
      else ⟨acc.reverse⟩ :: pySplitWsGo rest []
    else pySplitWsGo rest (c :: acc)

/-- Python str.split with no separator: split on whitespace runs,
dropping empty pieces. -/
def pySplitWs (s : String) : List String :=
  pySplitWsGo s.data []

/-- Python int truncation toward zero of a rational. -/
def pyInt (q : ℚ) : ℤ :=
  if q < 0 then ⌈q⌉ else ⌊q⌋

/-- Python min over a list of integers, 0 for the empty list
(the sources only apply it to nonempty lists). -/
def pyMinInt : List ℤ → ℤ
  | [] => 0
  | x :: xs => xs.foldl min x

/-- Python max over a list of integers, 0 for the empty list. -/
def pyMaxInt : List ℤ → ℤ
  | [] => 0
  | x :: xs => xs.foldl max x

/-! ## Data model (models.py) -/

/-- Axis-aligned bounding box with integer pixel coordinates. -/
structure BoundingBox where
  x : ℤ
  y : ℤ
  width : ℤ
  height : ℤ
deriving DecidableEq, Repr

/-- One recognised token with geometry and confidence. -/
structure WordDetail where
  text : String
  confidence : ℚ
  bbox : BoundingBox
  polygon : List (ℤ × ℤ)
deriving DecidableEq, Repr

/-! ## OneOCR raw results (input shape consumed by ocr_processor.py) -/

/-- The bounding_rect dictionary of a OneOCR word or line:
four corner points as floats. -/
structure OneRect where
  x1 : ℚ
  y1 : ℚ
  x2 : ℚ
  y2 : ℚ
  x3 : ℚ
  y3 : ℚ
  x4 : ℚ
  y4 : ℚ
deriving DecidableEq, Repr

/-- One word entry of a OneOCR line; boundingRect is none when the
dictionary entry is absent or empty (falsy in Python). -/
structure OneWord where
  text : String
  confidence : ℚ
  boundingRect : Option OneRect
deriving DecidableEq, Repr

/-- One line entry of the OneOCR result dictionary. -/
structure OneLine where
  text : String
  words : List OneWord
  boundingRect : Option OneRect
deriving DecidableEq, Repr

/-- The OneOCR result dictionary as consumed by ocr_processor.py. -/
structure OneOCRResults where
  text : String
  lines : List OneLine
  textAngle : ℚ
deriving DecidableEq, Repr

/-- MIN_OCR_CONFIDENCE from config.py. -/
def MIN_OCR_CONFIDENCE : ℚ := 1/2

/-- Conversion of a OneOCR bounding rect to a WordDetail, as in the body of
the word loop of extract_word_details in ocr_processor.py. -/
def mkWordDetail (wordText : String) (conf : ℚ) (r : OneRect) : WordDetail :=
  let minX := min (min r.x1 r.x2) (min r.x3 r.x4)
  let maxX := max (max r.x1 r.x2) (max r.x3 r.x4)
  let minY := min (min r.y1 r.y2) (min r.y3 r.y4)
  let maxY := max (max r.y1 r.y2) (max r.y3 r.y4)
  { text := wordText
    confidence := conf
    bbox := { x := pyInt minX, y := pyInt minY
              width := pyInt (maxX - minX), height := pyInt (maxY - minY) }
    polygon := [(pyInt r.x1, pyInt r.y1), (pyInt r.x2, pyInt r.y2),
                (pyInt r.x3, pyInt r.y3), (pyInt r.x4, pyInt r.y4)] }

/-- Inner loop of extract_word_details over the words of one line:
returns the extracted details together with the running total confidence
and word count accumulated by the source. -/
def extractFromWords : List OneWord → List WordDetail × ℚ × ℕ
  | [] => ([], 0, 0)
  | w :: ws =>
    let rest := extractFromWords ws
    let wordText := pyStrip w.text
    match w.boundingRect with
    | none => rest
    | some r =>
      if wordText = "" ∨ w.confidence < MIN_OCR_CONFIDENCE then rest
      else
        (mkWordDetail wordText w.confidence r :: rest.1,
         w.confidence + rest.2.1, rest.2.2 + 1)

/-- Outer loop of extract_word_details over the lines. -/
def extractFromLines : List OneLine → List WordDetail × ℚ × ℕ
  | [] => ([], 0, 0)
  | l :: ls =>
    let first := extractFromWords l.words
    let rest := extractFromLines ls
    (first.1 ++ rest.1, first.2.1 + rest.2.1, first.2.2 + rest.2.2)

/-- extract_word_details from ocr_processor.py: word details, total
confidence and word count, skipping empty, low-confidence or
geometry-free words. -/
def extractWordDetails (r : OneOCRResults) : List WordDetail × ℚ × ℕ :=
  if r.lines = [] then ([], 0, 0) else extractFromLines r.lines

/-- Result-level fields of the OCRResult built by perform_ocr_on_image
that the confidence claim speaks about. -/
structure OCRConfidenceView where
  confidence : ℚ
  wordDetails : List WordDetail
deriving Repr

/-- Confidence and word details of the OCRResult constructed by
perform_ocr_on_image in ocr_processor.py on a cache miss: the none case is
the branch where the recognizer returned no valid lines dictionary. -/
def performOCRView : Option OneOCRResults → OCRConfidenceView
  | none => { confidence := 0, wordDetails := [] }
  | some r =>
    let e := extractWordDetails r
    let avg := if e.2.2 > 0 then e.2.1 / (e.2.2 : ℚ) else 0
    { confidence := avg, wordDetails := e.1 }

/-! ## Result cache (utils/caching.py, CompressedLRUCache)

The OrderedDict is modelled as a list of entries whose front is the oldest
position (the one next(iter(...)) yields) and whose back is the most
recent position (where move_to_end and fresh insertion place a key).
Compression is a bijection, so the stored payload is modelled by the
value itself.  Each entry additionally carries a ghost field lastUse, the
logical time of its initial insertion or latest get hit; the ghost field
exists only to state the LRU property and is never read by the
operations. -/

/-- One cache entry: key, payload, wall-clock insertion timestamp, and the
ghost last-use logical time. -/
structure CEntry where
  key : String
  data : ℕ
  timestamp : ℚ
  lastUse : ℕ
deriving DecidableEq, Repr

/-- Cache state: the entry list in OrderedDict order plus the ghost logical
clock used to stamp lastUse. -/
structure CacheState where
  entries : List CEntry
  clock : ℕ
deriving DecidableEq, Repr

/-- The initial, empty cache. -/
def cacheInit : CacheState := { entries := [], clock := 0 }

/-- CompressedLRUCache.get at wall-clock time now: miss, expiry deletion,
or hit with move_to_end.  The hit additionally stamps the ghost lastUse
with the current logical clock. -/
def cacheGet (ttl : ℚ) (now : ℚ) (key : String) (s : CacheState) :
    Option ℕ × CacheState :=
  match s.entries.find? (fun e => e.key = key) with
  | none => (none, s)
  | some e =>
    if now - e.timestamp > ttl then
      (none, { s with entries := s.entries.filter (fun e2 => e2.key ≠ key) })
    else
      (some e.data,
       { entries := s.entries.filter (fun e2 => e2.key ≠ key) ++
           [{ e with lastUse := s.clock }]
         clock := s.clock + 1 })

/-- The while loop of CompressedLRUCache.put that deletes the oldest entry
while the dictionary is at capacity.  Returns the evicted entries, the
remaining entries, and whether next(iter(...)) raised StopIteration
(possible only when max_size is zero and everything has been drained). -/
def evictWhile (maxSize : ℕ) : List CEntry → List CEntry × List CEntry × Bool
  | [] => if maxSize = 0 then ([], [], true) else ([], [], false)
  | e :: rest =>
    if maxSize ≤ (e :: rest).length then
      let r := evictWhile maxSize rest
      (e :: r.1, r.2.1, r.2.2)
    else ([], e :: rest, false)

/-- CompressedLRUCache.put: evict while at capacity, then assign the key.
Assigning an existing key keeps its OrderedDict position (its ghost
lastUse is unchanged: a put is not an access); a fresh key is appended at
the most recent position with lastUse stamped from the logical clock.
When the eviction loop raised, the except clause swallows the error and
nothing is inserted. -/
def cachePut (maxSize : ℕ) (now : ℚ) (key : String) (v : ℕ)
    (s : CacheState) : CacheState :=
  let r := evictWhile maxSize s.entries
  if r.2.2 then { s with entries := r.2.1 }
  else if r.2.1.any (fun e => e.key = key) then
    { s with entries :=
        r.2.1.map (fun e =>
          if e.key = key then { e with data := v, timestamp := now } else e) }
  else
    { entries := r.2.1 ++ [⟨key, v, now, s.clock⟩], clock := s.clock + 1 }

/-- CompressedLRUCache.clear_expired: drop every expired entry. -/
def cacheClearExpired (ttl : ℚ) (now : ℚ) (s : CacheState) : CacheState :=
  { s with entries := s.entries.filter (fun e => ¬ now - e.timestamp > ttl) }

/-- One cache operation together with the wall-clock time it runs at. -/
inductive CacheOp where
  | get (now : ℚ) (key : String)
  | put (now : ℚ) (key : String) (v : ℕ)
  | clearExpired (now : ℚ)
deriving DecidableEq, Repr

/-- Apply one operation to the cache state. -/
def cacheStep (maxSize : ℕ) (ttl : ℚ) (s : CacheState) : CacheOp → CacheState
  | .get now key => (cacheGet ttl now key s).2
  | .put now key v => cachePut maxSize now key v s
  | .clearExpired now => cacheClearExpired ttl now s

/-- Run a sequence of operations from the empty cache. -/
def cacheRun (maxSize : ℕ) (ttl : ℚ) (ops : List CacheOp) : CacheState :=
  ops.foldl (cacheStep maxSize ttl) cacheInit

/-- Invariant of reachable cache states: the entry count is bounded by
max_size, the entry list is ordered by ascending ghost last-use time (so
the front is the least recently used), and every recorded last use lies
strictly below the logical clock. -/
def CacheInv (maxSize : ℕ) (s : CacheState) : Prop :=
  s.entries.length ≤ maxSize ∧
  s.entries.Pairwise (fun e1 e2 => e1.lastUse ≤ e2.lastUse) ∧
  ∀ e ∈ s.entries, e.lastUse < s.clock

/-! ## Cache keys (ocr_processor.py and main.py)

The BLAKE2b digests are opaque parameters of the embedding.  File bytes
are a list of byte values; reading a path is a file-system parameter. -/

/-- Cache key built by perform_ocr_on_image in core/ocr_processor.py:
a digest of the file bytes and a digest of the serialised options,
concatenated.  The path never enters the key. -/
def ocrProcessorCacheKey (hashBytes : List ℕ → String)
    (hashOptions : String → String)
    (fileBytes : List ℕ) (optionsJson : String) : String :=
  "ocr_" ++ hashBytes fileBytes ++ "_" ++ hashOptions optionsJson

/-- Key derivation of core/ocr_processor.py as a function of the path,
given the file system readBytes. -/
def ocrProcessorKeyOfPath (hashBytes : List ℕ → String)
    (hashOptions : String → String) (readBytes : String → List ℕ)
    (path : String) (optionsJson : String) : String :=
  ocrProcessorCacheKey hashBytes hashOptions (readBytes path) optionsJson

/-- get_file_hash in main.py: the digest input is the stat metadata string
containing the file path, size, mtime and inode, never the file bytes. -/
def getFileHash (hashStr : String → String)
    (path sizeStr mtimeStr inoStr : String) : String :=
  hashStr (path ++ "_" ++ sizeStr ++ "_" ++ mtimeStr ++ "_" ++ inoStr)

/-- Cache key built by perform_ocr_on_image in main.py from get_file_hash
and the options digest. -/
def mainCacheKey (hashStr : String → String)
    (hashOptions : String → String)
    (path sizeStr mtimeStr inoStr optionsStr : String) : String :=
  "ocr_" ++ getFileHash hashStr path sizeStr mtimeStr inoStr ++ "_" ++
    hashOptions optionsStr

/-! ## Video sampler and SSIM deduplicator (core/video_processor.py)

Frames, thumbnails and the skimage SSIM score are parameters: thumb
models the grayscale conversion plus the 320x180 resize, ssim the
structural_similarity call returning a float score. -/

section Video

variable {Frame Thumb : Type}

/-- are_frames_similar from video_processor.py: true when the SSIM score
is strictly above the threshold. -/
def areFramesSimilar (ssim : Thumb → Thumb → ℚ) (f1 f2 : Thumb)
    (threshold : ℚ) : Bool :=
  decide (ssim f1 f2 > threshold)

/-- The emission decision of the sampling loop: a sampled frame is emitted
when no previous thumbnail is kept or are_frames_similar is false. -/
def emitDecision (ssim : Thumb → Thumb → ℚ) (prev : Option Thumb)
    (cur : Thumb) (threshold : ℚ) : Bool :=
  match prev with
  | none => true
  | some p => !areFramesSimilar ssim p cur threshold

/-- The while loop of process_video_for_ocr: counts every read frame,
samples on multiples of frame_interval, emits a sampled frame when the
emission decision fires (replacing the kept thumbnail first), and stops
at max_frames unique frames.  The emission body then calls
perform_ocr_on_image(frame_path, ocr_options) with two arguments, but the
imported core.ocr_processor.perform_ocr_on_image requires three, so the
first emitted frame raises TypeError; the function-level except swallows
it and returns the counters accumulated so far with success false.
Returns the unique count, the frames handed to OCR in capture order, and
the success flag of the VideoOCRResult. -/
def videoLoop (ssim : Thumb → Thumb → ℚ) (thumb : Frame → Thumb)
    (interval maxFrames : ℕ) (threshold : ℚ) :
    List Frame → ℕ → Option Thumb → ℕ → List Frame → ℕ × List Frame × Bool
  | [], _, _, uniq, acc => (uniq, acc.reverse, true)
  | f :: rest, cnt, prev, uniq, acc =>
    if maxFrames ≤ uniq then (uniq, acc.reverse, true)
    else
      let c := cnt + 1
      if c % interval ≠ 0 then
        videoLoop ssim thumb interval maxFrames threshold rest c prev uniq acc
      else
        let th := thumb f
        if emitDecision ssim prev th threshold then
          (uniq + 1, (f :: acc).reverse, false)
        else
          videoLoop ssim thumb interval maxFrames threshold rest c prev uniq acc

/-- Frame sampling of process_video_for_ocr, started on the full frame
sequence with zeroed counters: unique count, frames handed to OCR, and
the success flag. -/
def processVideoFrames (ssim : Thumb → Thumb → ℚ) (thumb : Frame → Thumb)
    (frames : List Frame) (interval maxFrames : ℕ) (threshold : ℚ) :
    ℕ × List Frame × Bool :=
  videoLoop ssim thumb interval maxFrames threshold frames 0 none 0 []

/-- Modelled from the spec wording of the claim: the sampling loop as the
claim states it, emitting a sampled frame exactly when no previous
thumbnail is kept or the SSIM score is strictly below the threshold. -/
def claimVideoLoop (ssim : Thumb → Thumb → ℚ) (thumb : Frame → Thumb)
    (interval maxFrames : ℕ) (threshold : ℚ) :
    List Frame → ℕ → Option Thumb → ℕ → List Frame → ℕ × List Frame
  | [], _, _, uniq, acc => (uniq, acc.reverse)
  | f :: rest, cnt, prev, uniq, acc =>
    if maxFrames ≤ uniq then (uniq, acc.reverse)
    else
      let c := cnt + 1
      if c % interval ≠ 0 then
        claimVideoLoop ssim thumb interval maxFrames threshold rest c prev uniq acc
      else
        let th := thumb f
        let strictEmit : Bool :=
          match prev with
          | none => true
          | some p => decide (ssim p th < threshold)
        if strictEmit then
          claimVideoLoop ssim thumb interval maxFrames threshold rest c (some th)
            (uniq + 1) (f :: acc)
        else
          claimVideoLoop ssim thumb interval maxFrames threshold rest c prev uniq acc

/-- The claimed sampling behaviour started on the full frame sequence. -/
def claimProcessVideoFrames (ssim : Thumb → Thumb → ℚ) (thumb : Frame → Thumb)
    (frames : List Frame) (interval maxFrames : ℕ) (threshold : ℚ) :
    ℕ × List Frame :=
  claimVideoLoop ssim thumb interval maxFrames threshold frames 0 none 0 []

end Video

/-! ## difflib.SequenceMatcher (as called by calculate_text_similarity_cached)

The autojunk popularity heuristic only fires for second strings of length
at least 200; calculate_text_similarity_cached truncates nothing before
the ratio call but every concrete input used below is far shorter, and the
junk-extension loops of find_longest_match are no-ops without junk, so
they are omitted.  The matching-block recursion uses explicit fuel, one
more than the first string length, which bounds its depth. -/

/-- Inner loop of find_longest_match over the positions of the current
character of a in b: threads the fresh run-length map and the running
best block (i, j, size), updating best only on strictly longer runs. -/
def flmInner (j2len : ℕ → ℕ) (i : ℕ) :
    List ℕ → (ℕ → ℕ) → ℕ × ℕ × ℕ → (ℕ → ℕ) × (ℕ × ℕ × ℕ)
  | [], newmap, best => (newmap, best)
  | j :: js, newmap, best =>
    let k := (if j = 0 then 0 else j2len (j - 1)) + 1
    let newmap2 := fun j2 => if j2 = j then k else newmap j2
    let best2 := if k > best.2.2 then (i + 1 - k, j + 1 - k, k) else best
    flmInner j2len i js newmap2 best2

/-- Outer loop of find_longest_match over the indices of a. -/
def flmOuter (a b : List Char) (blo bhi : ℕ) :
    List ℕ → (ℕ → ℕ) → ℕ × ℕ × ℕ → ℕ × ℕ × ℕ
  | [], _, best => best
  | i :: is, j2len, best =>
    let c := a.getD i ' '
    let js := (List.range' blo (bhi - blo)).filter (fun j => b.getD j ' ' = c)
    let r := flmInner j2len i js (fun _ => 0) best
    flmOuter a b blo bhi is r.1 r.2

/-- find_longest_match of difflib.SequenceMatcher restricted to the slices
given by alo, ahi, blo, bhi (junk-free case). -/
def findLongestMatch (a b : List Char) (alo ahi blo bhi : ℕ) : ℕ × ℕ × ℕ :=
  flmOuter a b blo bhi (List.range' alo (ahi - alo)) (fun _ => 0) (alo, blo, 0)

/-- get_matching_blocks recursion: the longest match splits the slices in
two, recursively matched; the terminal zero-length sentinel block is
omitted since only block sizes are summed by ratio. -/
def matchingBlocks (a b : List Char) : ℕ → ℕ → ℕ → ℕ → ℕ → List (ℕ × ℕ × ℕ)
  | 0, _, _, _, _ => []
  | fuel + 1, alo, ahi, blo, bhi =>
    let m := findLongestMatch a b alo ahi blo bhi
    if m.2.2 = 0 then []
    else
      matchingBlocks a b fuel alo m.1 blo m.2.1 ++ [m] ++
        matchingBlocks a b fuel (m.1 + m.2.2) ahi (m.2.1 + m.2.2) bhi

/-- Total number of matched elements across all matching blocks. -/
def smMatchSize (a b : List Char) : ℕ :=
  ((matchingBlocks a b (a.length + 1) 0 a.length 0 b.length).map
    (fun m => m.2.2)).sum

/-- SequenceMatcher.ratio: twice the matched count over the total length,
1 when both strings are empty. -/
def smRatio (a b : String) : ℚ :=
  if a.length + b.length = 0 then 1
  else 2 * (smMatchSize a.data b.data : ℚ) / ((a.length + b.length : ℕ) : ℚ)

/-- Python string slicing s[:n]. -/
def takeString (n : ℕ) (s : String) : String :=
  ⟨s.data.take n⟩

/-! ## calculate_text_similarity_cached (main.py) -/

/-- calculate_text_similarity_cached from main.py: empty and equality
short-circuits, the length-ratio filter, the SequenceMatcher ratio, and
the Levenshtein refinement applied only when the ratio exceeds one half
(modelling the path where the Levenshtein import succeeds). -/
def calculateTextSimilarity (text1 text2 : String) : ℚ :=
  if text1 = "" ∨ text2 = "" then 0
  else
    let n1 := pyLower (pyStrip text1)
    let n2 := pyLower (pyStrip text2)
    if n1 = n2 then 1
    else
      let len1 := n1.length
      let len2 := n2.length
      if len1 = 0 ∨ len2 = 0 then 0
      else
        let lengthRatio : ℚ := ((min len1 len2 : ℕ) : ℚ) / ((max len1 len2 : ℕ) : ℚ)
        if lengthRatio < 3/10 then 0
        else
          let sim := smRatio n1 n2
          if sim > 1/2 then
            let t1c := takeString 200 n1
            let t2c := takeString 200 n2
            let dist := levenshtein Levenshtein.defaultCost t1c.data t2c.data
            let maxLen := max t1c.length t2c.length
            let levSim : ℚ :=
              if maxLen > 0 then 1 - (dist : ℚ) / ((maxLen : ℕ) : ℚ) else 0
            3/10 * sim + 7/10 * levSim
          else sim

/-- Jaccard similarity of the whitespace word sets of two strings, 0 when
both are wordless. -/
def wordJaccard (a b : String) : ℚ :=
  let wa := (pySplitWs a).toFinset
  let wb := (pySplitWs b).toFinset
  if (wa ∪ wb).card = 0 then 0
  else ((wa ∩ wb).card : ℚ) / (((wa ∪ wb).card : ℕ) : ℚ)

/-- Modelled from the spec wording of the claim: the asserted similarity
value on the non-short-circuited branch, namely the Jaccard value when
Jaccard is below one tenth and otherwise 0.3 times Jaccard plus 0.7 times
one minus the Levenshtein distance of the 200-character truncations over
the longer truncation. -/
def claimedSimilarityCombination (text1 text2 : String) : ℚ :=
  let n1 := pyLower (pyStrip text1)
  let n2 := pyLower (pyStrip text2)
  let jac := wordJaccard n1 n2
  if jac < 1/10 then jac
  else
    let t1c := takeString 200 n1
    let t2c := takeString 200 n2
    let dist := levenshtein Levenshtein.defaultCost t1c.data t2c.data
    let maxLen := max t1c.length t2c.length
    let levSim : ℚ :=
      if maxLen > 0 then 1 - (dist : ℚ) / ((maxLen : ℕ) : ℚ) else 0
    3/10 * jac + 7/10 * levSim

/-- The amended similarity value on the non-short-circuited branch: the
SequenceMatcher ratio when it is at most one half, and otherwise 0.3
times that ratio plus 0.7 times the Levenshtein complement of the
200-character truncations. -/
def amendedSimilarityCombination (text1 text2 : String) : ℚ :=
  let n1 := pyLower (pyStrip text1)
  let n2 := pyLower (pyStrip text2)
  let ratio := smRatio n1 n2
  if ratio > 1/2 then
    let t1c := takeString 200 n1
    let t2c := takeString 200 n2
    let dist := levenshtein Levenshtein.defaultCost t1c.data t2c.data
    let maxLen := max t1c.length t2c.length
    let levSim : ℚ :=
      if maxLen > 0 then 1 - (dist : ℚ) / ((maxLen : ℕ) : ℚ) else 0
    3/10 * ratio + 7/10 * levSim
  else ratio

/-! ## deduplicate_texts_optimized (main.py) -/

/-- Ordering used by the Python stable sort by descending length on
enumerated pairs: longer strings first, ties by original position. -/
def lenIdxLE (p q : String × ℕ) : Prop :=
  q.1.length < p.1.length ∨ (p.1.length = q.1.length ∧ p.2 ≤ q.2)

instance : DecidableRel lenIdxLE := fun p q => by
  unfold lenIdxLE
  infer_instance

instance : IsTotal (String × ℕ) lenIdxLE where
  total p q := by
    unfold lenIdxLE
    rcases lt_trichotomy p.1.length q.1.length with h | h | h
    · exact Or.inr (Or.inl h)
    · rcases le_total p.2 q.2 with h2 | h2
      · exact Or.inl (Or.inr ⟨h, h2⟩)
      · exact Or.inr (Or.inr ⟨h.symm, h2⟩)
    · exact Or.inl (Or.inl h)

instance : IsTrans (String × ℕ) lenIdxLE where
  trans p q r hpq hqr := by
    unfold lenIdxLE at *
    rcases hpq with h | ⟨he, hi⟩
    · rcases hqr with h2 | ⟨he2, _⟩
      · exact Or.inl (h2.trans h)
      · exact Or.inl (he2 ▸ h)
    · rcases hqr with h2 | ⟨he2, hi2⟩
      · exact Or.inl (he.symm ▸ h2)
      · exact Or.inr ⟨he.trans he2, hi.trans hi2⟩

/-- Python enumerate followed by the pair swap done in the source list
comprehension, yielding (text, index) pairs. -/
def enumTexts (l : List String) : List (String × ℕ) :=
  l.enum.map (fun p => (p.2, p.1))

/-- The accepting loop of deduplicate_texts_optimized: each candidate in
sorted order is kept unless it is similar (at or above the threshold) to
an already accepted unique text; accepted texts record their original
index in processed_indices. -/
def acceptLoop (simf : String → String → ℚ) (threshold : ℚ) :
    List (String × ℕ) → List String → List ℕ → List String
  | [], unique, _ => unique
  | (text, idx) :: rest, unique, processed =>
    if idx ∈ processed then acceptLoop simf threshold rest unique processed
    else
      if unique.any (fun u => decide (simf text u ≥ threshold)) then
        acceptLoop simf threshold rest unique processed
      else
        acceptLoop simf threshold rest (unique ++ [text]) (processed ++ [idx])

/-- deduplicate_texts_optimized from main.py, parameterised by the
similarity function: inputs of length at most one are returned untouched,
otherwise texts are stripped, short texts dropped, candidates sorted by
descending length (stable, modelled by the total order on enumerated
pairs) and clustered greedily. -/
def deduplicateTexts (simf : String → String → ℚ) (texts : List String)
    (threshold : ℚ) : List String :=
  if texts.length ≤ 1 then texts
  else
    let filtered := (texts.map pyStrip).filter (fun s => 3 ≤ s.length)
    if filtered = [] then []
    else
      acceptLoop simf threshold
        (List.insertionSort lenIdxLE (enumTexts filtered)) [] []

/-- deduplicate_texts_optimized with its real similarity function. -/
def deduplicateTextsOptimized (texts : List String) (threshold : ℚ) :
    List String :=
  deduplicateTexts calculateTextSimilarity texts threshold

/-! ## Layout reconstruction (utils/text_postprocessor.py)

Embedding of AdvancedTextPostprocessor.process_ocr_result on the path
with no text lines.  Python sorted is stable; each sort is modelled by
insertion sort over a reflexive total key order, under which the element
inserted earlier stays in front on key ties, exactly the stable
behaviour.  The dead page_top, page_bottom and page_height bindings of
analyze_layout are omitted. -/

/-- Reading order patterns. -/
inductive ReadingOrder where
  | ltrTtb
  | rtlTtb
  | ttbLtr
  | ttbRtl
deriving DecidableEq, Repr

/-- Document layout types distinguished by analyze_layout (the mixed
variant is never produced). -/
inductive LayoutType where
  | singleColumn
  | multiColumn
  | table
deriving DecidableEq, Repr

/-- A block of related words; the text_lines, is_paragraph and block_type
fields of the source dataclass are never read on this path and are
omitted. -/
structure TextBlock where
  text : String
  bbox : BoundingBox
  confidence : ℚ
  wordDetails : List WordDetail
  columnIndex : ℕ
deriving DecidableEq, Repr

/-- Lexicographic comparison of integer pairs, non-strict. -/
def lexLE (p q : ℤ × ℤ) : Prop :=
  p.1 < q.1 ∨ (p.1 = q.1 ∧ p.2 ≤ q.2)

/-- Comparison of values through an integer-pair sort key. -/
def byKeyLE {α : Type} (key : α → ℤ × ℤ) (a b : α) : Prop :=
  lexLE (key a) (key b)

instance {α : Type} (key : α → ℤ × ℤ) : DecidableRel (byKeyLE key) :=
  fun a b => by
    unfold byKeyLE lexLE
    infer_instance

instance {α : Type} (key : α → ℤ × ℤ) : IsTotal α (byKeyLE key) where
  total a b := by
    unfold byKeyLE lexLE
    rcases lt_trichotomy (key a).1 (key b).1 with h | h | h
    · exact Or.inl (Or.inl h)
    · rcases le_total (key a).2 (key b).2 with h2 | h2
      · exact Or.inl (Or.inr ⟨h, h2⟩)
      · exact Or.inr (Or.inr ⟨h.symm, h2⟩)
    · exact Or.inr (Or.inl h)

instance {α : Type} (key : α → ℤ × ℤ) : IsTrans α (byKeyLE key) where
  trans a b c hab hbc := by
    unfold byKeyLE lexLE at *
    rcases hab with h | ⟨he, hi⟩
    · rcases hbc with h2 | ⟨he2, _⟩
      · exact Or.inl (h.trans h2)
      · exact Or.inl (he2 ▸ h)
    · rcases hbc with h2 | ⟨he2, hi2⟩
      · exact Or.inl (he ▸ h2)
      · exact Or.inr ⟨he.trans he2, hi.trans hi2⟩

/-- The sort key of group_words_into_blocks: y position then x position. -/
def wordKey (w : WordDetail) : ℤ × ℤ :=
  (w.bbox.y, w.bbox.x)

/-- The consecutive-gap scan of detect_columns: adjacent sorted x
positions whose difference exceeds the threshold. -/
def consecutiveGaps (th : ℚ) : List ℤ → List (ℤ × ℤ)
  | [] => []
  | [_] => []
  | x :: y :: rest =>
    (if ((y - x : ℤ) : ℚ) > th then [(x, y)] else []) ++
      consecutiveGaps th (y :: rest)

/-- The middle columns built between consecutive gaps. -/
def middleCols : List (ℤ × ℤ) → List (ℤ × ℤ)
  | g1 :: g2 :: rest => (g1.2, g2.1) :: middleCols (g2 :: rest)
  | _ => []

/-- detect_columns: collect both x extents of every word, sort them, find
gaps above one tenth of the page width, and convert gaps to column
intervals. -/
def detectColumns (words : List WordDetail) (pageWidth pageLeft pageRight : ℤ) :
    List (ℤ × ℤ) :=
  let xs := words.flatMap (fun w => [w.bbox.x, w.bbox.x + w.bbox.width])
  let sorted := List.insertionSort (· ≤ ·) xs
  let threshold : ℚ := (pageWidth : ℚ) * (1/10)
  let gaps := consecutiveGaps threshold sorted
  match gaps with
  | [] => [(pageLeft, pageRight)]
  | g0 :: _ =>
    ((pageLeft, g0.1) :: middleCols gaps) ++ [((gaps.getLastD (0, 0)).2, pageRight)]

/-- looks_like_table: at least three distinct word y origins and three
distinct x origins. -/
def looksLikeTable (words : List WordDetail) : Bool :=
  decide (3 ≤ ((words.map (fun w => w.bbox.y)).dedup).length) &&
    decide (3 ≤ ((words.map (fun w => w.bbox.x)).dedup).length)

/-- analyze_layout: fewer than three words is single column, otherwise
column detection over the page extent decides between single column,
table and multi column. -/
def analyzeLayout (words : List WordDetail) : LayoutType :=
  if words.length < 3 then .singleColumn
  else
    let pageLeft := pyMinInt (words.map (fun w => w.bbox.x))
    let pageRight := pyMaxInt (words.map (fun w => w.bbox.x + w.bbox.width))
    let pageWidth := pageRight - pageLeft
    let columns := detectColumns words pageWidth pageLeft pageRight
    if 1 < columns.length then
      if looksLikeTable words then .table else .multiColumn
    else .singleColumn

/-- create_block_from_words: joined text, enclosing box and mean
confidence (callers only pass nonempty lists; the empty case yields the
zero block). -/
def createBlockFromWords (words : List WordDetail) : TextBlock :=
  let minX := pyMinInt (words.map (fun w => w.bbox.x))
  let minY := pyMinInt (words.map (fun w => w.bbox.y))
  let maxX := pyMaxInt (words.map (fun w => w.bbox.x + w.bbox.width))
  let maxY := pyMaxInt (words.map (fun w => w.bbox.y + w.bbox.height))
  { text := String.intercalate " " (words.map (fun w => w.text))
    bbox := { x := minX, y := minY, width := maxX - minX, height := maxY - minY }
    confidence :=
      if words.length = 0 then 0
      else ((words.map (fun w => w.confidence)).sum) / (words.length : ℚ)
    wordDetails := words
    columnIndex := 0 }

/-- Walk of the y-sorted words in group_words_into_blocks: a word whose
vertical offset from its predecessor exceeds one and a half average
heights starts a new block.  The current block is accumulated reversed. -/
def groupLoop : List WordDetail → WordDetail → List WordDetail → List TextBlock
  | [], _, cur => [createBlockFromWords cur.reverse]
  | w :: rest, prev, cur =>
    let yDistance := |w.bbox.y - prev.bbox.y|
    let avgHeight : ℚ := ((w.bbox.height + prev.bbox.height : ℤ) : ℚ) / 2
    if (yDistance : ℚ) > avgHeight * (3/2) then
      createBlockFromWords cur.reverse :: groupLoop rest w [w]
    else
      groupLoop rest w (w :: cur)

/-- group_words_into_blocks: stable sort by (y, x), then the block walk. -/
def groupWordsIntoBlocks (words : List WordDetail) : List TextBlock :=
  match List.insertionSort (byKeyLE wordKey) words with
  | [] => []
  | w :: rest => groupLoop rest w [w]

/-- Search of get_column_index: first column interval containing the
block x centre, defaulting to 0. -/
def getColumnIndexAux (center : ℚ) : List (ℤ × ℤ) → ℕ → ℕ
  | [], _ => 0
  | (s, e) :: rest, i =>
    if (s : ℚ) ≤ center ∧ center ≤ (e : ℚ) then i
    else getColumnIndexAux center rest (i + 1)

/-- get_column_index of a block against the column intervals. -/
def getColumnIndex (b : TextBlock) (cols : List (ℤ × ℤ)) : ℕ :=
  getColumnIndexAux ((b.bbox.x : ℚ) + (b.bbox.width : ℚ) / 2) cols 0

/-- sort_multi_column_blocks: columns detected over the first word of
each block with the hard-coded page extent 0 to 1000, column indices
assigned, then a stable sort by column and y. -/
def sortMultiColumnBlocks (blocks : List TextBlock) : List TextBlock :=
  let firstWords := blocks.filterMap (fun b => b.wordDetails.head?)
  let columns := detectColumns firstWords 0 0 1000
  let assigned := blocks.map (fun b => { b with columnIndex := getColumnIndex b columns })
  List.insertionSort (byKeyLE (fun b => ((b.columnIndex : ℤ), b.bbox.y))) assigned

/-- sort_single_column_blocks: the four reading orders and their keys. -/
def sortSingleColumnBlocks (ro : ReadingOrder) (blocks : List TextBlock) :
    List TextBlock :=
  match ro with
  | .ltrTtb => List.insertionSort (byKeyLE (fun b => (b.bbox.y, b.bbox.x))) blocks
  | .rtlTtb => List.insertionSort (byKeyLE (fun b => (b.bbox.y, -b.bbox.x))) blocks
  | .ttbLtr => List.insertionSort (byKeyLE (fun b => (b.bbox.x, b.bbox.y))) blocks
  | .ttbRtl => List.insertionSort (byKeyLE (fun b => (-b.bbox.x, b.bbox.y))) blocks

/-- sort_table_blocks: stable sort by row then column position. -/
def sortTableBlocks (blocks : List TextBlock) : List TextBlock :=
  List.insertionSort (byKeyLE (fun b => (b.bbox.y, b.bbox.x))) blocks

/-- sort_by_reading_order dispatch. -/
def sortByReadingOrder (ro : ReadingOrder) (blocks : List TextBlock)
    (layout : LayoutType) : List TextBlock :=
  match layout with
  | .multiColumn => sortMultiColumnBlocks blocks
  | .table => sortTableBlocks blocks
  | .singleColumn => sortSingleColumnBlocks ro blocks

/-- The text-part walk of process_single_column_layout: newline between
blocks, double newline when the vertical gap exceeds two average
heights. -/
def singleColumnParts : List TextBlock → List String
  | [] => []
  | [b] => [b.text]
  | b :: b2 :: rest =>
    let verticalGap := b2.bbox.y - (b.bbox.y + b.bbox.height)
    let avgHeight : ℚ := ((b.bbox.height + b2.bbox.height : ℤ) : ℚ) / 2
    b.text :: (if (verticalGap : ℚ) > avgHeight * 2 then "\n\n" else "\n") ::
      singleColumnParts (b2 :: rest)

/-- process_single_column_layout. -/
def processSingleColumnLayout (blocks : List TextBlock) : String :=
  String.join (singleColumnParts blocks)

/-- process_multi_column_layout: group blocks by assigned column index,
emit each column as a single-column layout sorted by y, and join the
columns with the column-break marker in ascending index order. -/
def processMultiColumnLayout (blocks : List TextBlock) : String :=
  let keys := (blocks.map (fun b => b.columnIndex)).dedup
  let sortedKeys := List.insertionSort (· ≤ ·) keys
  let columnTexts := sortedKeys.map (fun k =>
    let colBlocks := blocks.filter (fun b => b.columnIndex = k)
    let sortedCol :=
      List.insertionSort (byKeyLE (fun b => (b.bbox.y, (0 : ℤ)))) colBlocks
    processSingleColumnLayout sortedCol)
  String.intercalate "\n\n--- Column Break ---\n\n" columnTexts

/-- Row grouping of process_table_layout over the sorted blocks: a block
within half an average height of the last block of the current row joins
it, otherwise a new row starts.  The current row is accumulated
reversed. -/
def tableRowsGo : List TextBlock → List TextBlock → List (List TextBlock)
  | [], curRev => [curRev.reverse]
  | b :: rest, curRev =>
    match curRev with
    | [] => tableRowsGo rest [b]
    | last :: _ =>
      let yDistance := |b.bbox.y - last.bbox.y|
      let avgHeight : ℚ := ((b.bbox.height + last.bbox.height : ℤ) : ℚ) / 2
      if (yDistance : ℚ) < avgHeight * (1/2) then tableRowsGo rest (b :: curRev)
      else curRev.reverse :: tableRowsGo rest [b]

/-- process_table_layout: sort by (y, x), group into rows, join cells with
a pipe separator and rows with newlines. -/
def processTableLayout (blocks : List TextBlock) : String :=
  let sorted := List.insertionSort (byKeyLE (fun b => (b.bbox.y, b.bbox.x))) blocks
  let rows : List (List TextBlock) :=
    match sorted with
    | [] => []
    | b :: rest => tableRowsGo rest [b]
  String.intercalate "\n"
    (rows.map (fun row => String.intercalate " | " (row.map (fun b => b.text))))

/-- Per-line whitespace collapse of clean_and_format_text: split on
whitespace runs and rejoin with single spaces. -/
def collapseSpaces (line : String) : String :=
  String.intercalate " " (pySplitWs line)

/-- Python str.split with a newline separator, walking the characters
with the current piece reversed in the accumulator (empty pieces are
kept, as Python does for an explicit separator). -/
def splitNLGo : List Char → List Char → List String
  | [], acc => [⟨acc.reverse⟩]
  | c :: rest, acc =>
    if c = '\n' then ⟨acc.reverse⟩ :: splitNLGo rest []
    else splitNLGo rest (c :: acc)

/-- Python text.split of clean_and_format_text on the newline separator. -/
def splitNewlines (s : String) : List String :=
  splitNLGo s.data []

/-- Newline-run collapse modelling the regex that rewrites three or more
consecutive newlines to exactly two: walks the characters counting the
pending newline run. -/
def collapseNLGo : List Char → ℕ → List Char
  | [], pending =>
    if pending ≥ 3 then ['\n', '\n'] else List.replicate pending '\n'
  | c :: rest, pending =>
    if c = '\n' then collapseNLGo rest (pending + 1)
    else
      (if pending ≥ 3 then ['\n', '\n'] else List.replicate pending '\n') ++
        c :: collapseNLGo rest 0

/-- The newline-run collapse on strings. -/
def collapseNewlines (s : String) : String :=
  ⟨collapseNLGo s.data 0⟩

/-- clean_and_format_text: collapse spaces within each newline-separated
line, collapse long newline runs, and strip. -/
def cleanAndFormatText (text : String) : String :=
  let lines := splitNewlines text
  let cleaned := lines.map collapseSpaces
  pyStrip (collapseNewlines (String.intercalate "\n" cleaned))

/-- process_ocr_result on the path without text lines: layout analysis,
block grouping, reading-order sort, layout-specific emission and cleanup.
Every step of this path is total, so the exception fallback of the source
is unreachable here. -/
def processOCRResult (ro : ReadingOrder) (words : List WordDetail) : String :=
  if words = [] then ""
  else
    let layout := analyzeLayout words
    let blocks := groupWordsIntoBlocks words
    let sorted := sortByReadingOrder ro blocks layout
    let structured :=
      match layout with
      | .multiColumn => processMultiColumnLayout sorted
      | .table => processTableLayout sorted
      | .singleColumn => processSingleColumnLayout sorted
    cleanAndFormatText structured

/-! ## Image preprocessing error policy (core/image_preprocessor.py)

The image type, the cv2.imread call and the processing body are
parameters: readImage returns ok none when imread yields None on an
unreadable file, ok (some img) on a successful decode, and error when the
call itself raises; pipeline stands for the whole body after the decode
and may raise. -/

section Preprocess

variable {Img Opts : Type}

/-- The except clause of enhanced_preprocess_image: re-read the path, and
only if that call itself raises fall back to the blank white 100x400
image. -/
def preprocessFallback (blankWhite : Img)
    (readImage : String → Except Unit (Option Img)) (path : String) :
    Option Img :=
  match readImage path with
  | .ok o => o
  | .error _ => some blankWhite

/-- enhanced_preprocess_image: decode, raise into the handler when the
decode yields None, otherwise run the processing body and fall back on
its failure.  The returned none models the Python None value flowing out
of the handler. -/
def enhancedPreprocessImage (blankWhite : Img)
    (readImage : String → Except Unit (Option Img))
    (pipeline : Img → Opts → Except Unit Img)
    (path : String) (opts : Opts) : Option Img :=
  match readImage path with
  | .error _ => preprocessFallback blankWhite readImage path
  | .ok none => preprocessFallback blankWhite readImage path
  | .ok (some img) =>
    match pipeline img opts with
    | .ok out => some out
    | .error _ => preprocessFallback blankWhite readImage path

end Preprocess

/-! ## Theorems -/

theorem extractFromWords_spec (ws : List OneWord) :
    (extractFromWords ws).2.1 =
      (((extractFromWords ws).1).map (fun w => w.confidence)).sum ∧
    (extractFromWords ws).2.2 = ((extractFromWords ws).1).length := by
  induction ws with
  | nil => simp [extractFromWords]
  | cons w ws ih =>
    rcases ih with ⟨ih1, ih2⟩
    simp only [extractFromWords]
    cases hbr : w.boundingRect with
    | none => exact ⟨ih1, ih2⟩
    | some r =>
      by_cases hc : pyStrip w.text = "" ∨ w.confidence < MIN_OCR_CONFIDENCE
      · simp only [if_pos hc]
        exact ⟨ih1, ih2⟩
      · simp only [if_neg hc, List.map_cons, List.sum_cons, List.length_cons]
        refine ⟨?_, by rw [ih2]⟩
        simp [mkWordDetail, ih1]

theorem extractFromLines_spec (ls : List OneLine) :
    (extractFromLines ls).2.1 =
      (((extractFromLines ls).1).map (fun w => w.confidence)).sum ∧
    (extractFromLines ls).2.2 = ((extractFromLines ls).1).length := by
  induction ls with
  | nil => simp [extractFromLines]
  | cons l ls ih =>
    rcases ih with ⟨ih1, ih2⟩
    rcases extractFromWords_spec l.words with ⟨hw1, hw2⟩
    simp only [extractFromLines, List.map_append, List.sum_append,
      List.length_append]
    exact ⟨by rw [ih1, hw1], by rw [ih2, hw2]⟩

/-- C1: the OCRResult built by perform_ocr_on_image carries a confidence
equal to the arithmetic mean of the confidences of its word details, and
equal to 0 when the word detail list is empty. -/
theorem ocr_confidence_is_mean_of_word_confidences (r : Option OneOCRResults) :
    (performOCRView r).confidence =
      if (performOCRView r).wordDetails = [] then 0
      else (((performOCRView r).wordDetails.map (fun w => w.confidence)).sum) /
        (((performOCRView r).wordDetails.length : ℕ) : ℚ) := by
  cases r with
  | none => simp [performOCRView]
  | some res =>
    simp only [performOCRView, extractWordDetails]
    by_cases hl : res.lines = []
    · simp [hl]
    · simp only [if_neg hl]
      rcases extractFromLines_spec res.lines with ⟨h1, h2⟩
      by_cases hni : (extractFromLines res.lines).1 = []
      · have hz : (extractFromLines res.lines).2.2 = 0 := by
          rw [h2, hni]
          rfl
        simp [hni, hz]
      · have hlen : 0 < (extractFromLines res.lines).1.length :=
          List.length_pos.mpr hni
        have hz : 0 < (extractFromLines res.lines).2.2 := by
          rw [h2]
          exact hlen
        simp [hni, hz, h1, h2]

/-- C3 counterexample: with the digest modelled by an injective function
(identity), the main.py cache key of two different paths with identical
file bytes, identical stat sizes, mtimes and inodes, and identical
options differs, because get_file_hash feeds the path into the digest. -/
theorem main_cache_key_depends_on_path :
    mainCacheKey (fun s => s) (fun s => s) "a.png" "100" "5.0" "7" "o" ≠
      mainCacheKey (fun s => s) (fun s => s) "b.png" "100" "5.0" "7" "o" := by
  decide

/-- C3 amended: the cache key of core/ocr_processor.py is derived from the
file bytes and the serialised options only, so two paths whose reads
return identical bytes yield identical keys under identical options.  The
main.py key instead hashes path, size, mtime and inode metadata and does
depend on the path. -/
theorem ocr_processor_key_path_independent
    (hashBytes : List ℕ → String) (hashOptions : String → String)
    (readBytes : String → List ℕ) (p1 p2 : String) (optionsJson : String)
    (h : readBytes p1 = readBytes p2) :
    ocrProcessorKeyOfPath hashBytes hashOptions readBytes p1 optionsJson =
      ocrProcessorKeyOfPath hashBytes hashOptions readBytes p2 optionsJson := by
  simp [ocrProcessorKeyOfPath, ocrProcessorCacheKey, h]

/-- Witness: the path-independence theorem applied at a concrete file
system where two paths hold the same bytes. -/
theorem ocr_processor_key_path_independent_witness :
    ocrProcessorKeyOfPath (fun _ => "H") (fun _ => "K") (fun _ => [1, 2, 3])
        "a.png" "o" =
      ocrProcessorKeyOfPath (fun _ => "H") (fun _ => "K") (fun _ => [1, 2, 3])
        "b.png" "o" :=
  ocr_processor_key_path_independent (fun _ => "H") (fun _ => "K")
    (fun _ => [1, 2, 3]) "a.png" "b.png" "o" rfl

/-- C4: the first sampled frame is always emitted (no thumbnail is kept
yet), and the OCR call on it is the two-argument
perform_ocr_on_image(frame_path, ocr_options) against a three-parameter
function, so the loop aborts with success false; the second sampled
frame, which the claimed rule emits because its SSIM score 0 lies below
the threshold, is never compared or emitted.  The theorem evaluates the
embedding of the code and of the claimed rule at this failing input. -/
theorem video_first_emission_typeerror_aborts_loop :
    processVideoFrames (fun _ _ : ℕ => (0 : ℚ)) (fun n : ℕ => n)
        [0, 1] 1 10 (98/100) = (1, [0], false) ∧
    claimProcessVideoFrames (fun _ _ : ℕ => (0 : ℚ)) (fun n : ℕ => n)
        [0, 1] 1 10 (98/100) = (2, [0, 1]) ∧
    (processVideoFrames (fun _ _ : ℕ => (0 : ℚ)) (fun n : ℕ => n)
        [0, 1] 1 10 (98/100)).2.1 ≠
      (claimProcessVideoFrames (fun _ _ : ℕ => (0 : ℚ)) (fun n : ℕ => n)
        [0, 1] 1 10 (98/100)).2 := by
  refine ⟨by decide, by decide, by decide⟩

theorem videoLoop_threshold_irrelevant {Frame Thumb : Type}
    (ssim : Thumb → Thumb → ℚ) (thumb : Frame → Thumb)
    (interval maxFrames : ℕ) (t1 t2 : ℚ) :
    ∀ (frames : List Frame) (cnt uniq : ℕ) (acc : List Frame),
      videoLoop ssim thumb interval maxFrames t1 frames cnt none uniq acc =
        videoLoop ssim thumb interval maxFrames t2 frames cnt none uniq acc := by
  intro frames
  induction frames with
  | nil => intro cnt uniq acc; rfl
  | cons f rest ih =>
    intro cnt uniq acc
    simp only [videoLoop]
    by_cases hstop : maxFrames ≤ uniq
    · simp [hstop]
    · simp only [if_neg hstop]
      by_cases hmod : (cnt + 1) % interval ≠ 0
      · simp only [if_pos hmod]
        exact ih (cnt + 1) uniq acc
      · simp only [if_neg hmod]
        rfl

/-- C5: for thresholds t1 at most t2, the number of unique frames emitted
at t2 is at most the number emitted at t1, for every video, frame
interval and max_frames.  This holds with equality: the kept thumbnail is
only ever set by an emission, and every emission aborts the loop through
the TypeError of the two-argument OCR call, so the SSIM comparison is
unreachable and the emitted count never depends on the threshold. -/
theorem unique_frame_count_weakly_decreasing_in_threshold
    {Frame Thumb : Type} (ssim : Thumb → Thumb → ℚ) (thumb : Frame → Thumb)
    (frames : List Frame) (interval maxFrames : ℕ) (t1 t2 : ℚ)
    (h : t1 ≤ t2) :
    (processVideoFrames ssim thumb frames interval maxFrames t2).1 ≤
      (processVideoFrames ssim thumb frames interval maxFrames t1).1 := by
  have heq := videoLoop_threshold_irrelevant ssim thumb interval maxFrames
    t1 t2 frames 0 0 []
  simp only [processVideoFrames]
  rw [← heq]

/-- Witness: the weak decrease applied at a concrete video and a concrete
pair of thresholds. -/
theorem unique_frame_count_weakly_decreasing_in_threshold_witness :
    (processVideoFrames (fun _ _ : ℕ => (1 : ℚ)/2) (fun n : ℕ => n)
        [0, 1] 1 10 (3/5)).1 ≤
      (processVideoFrames (fun _ _ : ℕ => (1 : ℚ)/2) (fun n : ℕ => n)
        [0, 1] 1 10 (2/5)).1 :=
  unique_frame_count_weakly_decreasing_in_threshold (fun _ _ : ℕ => (1 : ℚ)/2)
    (fun n : ℕ => n) [0, 1] 1 10 (2/5) (3/5) (by norm_num)

/-- C9 counterexample: when the decode yields no image (cv2.imread
returns None without raising), enhanced_preprocess_image returns None,
not the blank white image the claim promises. -/
theorem preprocess_decode_failure_returns_none_not_blank :
    enhancedPreprocessImage (0 : ℕ) (fun _ => .ok none)
        (fun i (_ : Unit) => .ok i) "img.png" () = none ∧
    enhancedPreprocessImage (0 : ℕ) (fun _ => .ok none)
        (fun i (_ : Unit) => .ok i) "img.png" () ≠ some 0 := by
  refine ⟨rfl, by decide⟩

/-- C9 amended: preprocessing never raises (the embedding is a total
function); on a processing failure after a successful decode it returns
the freshly re-decoded original image; when the decode yields no image it
returns no image rather than a blank one; the blank white image is
returned only when the fallback decode call itself raises. -/
theorem preprocess_error_policy {Img Opts : Type} (blank : Img)
    (readImage : String → Except Unit (Option Img))
    (pipeline : Img → Opts → Except Unit Img) (path : String) (opts : Opts) :
    (∀ img out, readImage path = .ok (some img) → pipeline img opts = .ok out →
        enhancedPreprocessImage blank readImage pipeline path opts = some out) ∧
    (∀ img e, readImage path = .ok (some img) → pipeline img opts = .error e →
        enhancedPreprocessImage blank readImage pipeline path opts = some img) ∧
    (readImage path = .ok none →
        enhancedPreprocessImage blank readImage pipeline path opts = none) ∧
    (∀ e, readImage path = .error e →
        enhancedPreprocessImage blank readImage pipeline path opts = some blank) := by
  refine ⟨?_, ?_, ?_, ?_⟩ <;> intros <;>
    simp_all [enhancedPreprocessImage, preprocessFallback]

/-- Witness: the error policy applied where the processing body fails
after a successful decode, yielding the decoded original. -/
theorem preprocess_error_policy_witness :
    enhancedPreprocessImage (0 : ℕ) (fun _ => .ok (some 5))
        (fun _ (_ : Unit) => .error ()) "p.png" () = some 5 :=
  (preprocess_error_policy (0 : ℕ) (fun _ => .ok (some 5))
      (fun _ (_ : Unit) => .error ()) "p.png" ()).2.1 5 () rfl rfl

/-- C6 counterexample: the strings ab and ba satisfy every hypothesis of
the claim (distinct lowercase normalisations, both nonempty, length ratio
1), yet the code returns the SequenceMatcher ratio 1/2 while the claimed
word-set Jaccard formula returns the Jaccard value 0 (their word sets are
disjoint, so Jaccard is below one tenth). -/
theorem similarity_differs_from_jaccard_formula :
    pyLower (pyStrip "ab") ≠ pyLower (pyStrip "ba") ∧
    ("ab" : String) ≠ "" ∧ ("ba" : String) ≠ "" ∧
    ¬ ((((min (pyLower (pyStrip "ab")).length (pyLower (pyStrip "ba")).length : ℕ) : ℚ) /
        ((max (pyLower (pyStrip "ab")).length (pyLower (pyStrip "ba")).length : ℕ) : ℚ)) < 3/10) ∧
    calculateTextSimilarity "ab" "ba" = 1/2 ∧
    claimedSimilarityCombination "ab" "ba" = 0 ∧
    calculateTextSimilarity "ab" "ba" ≠ claimedSimilarityCombination "ab" "ba" := by
  refine ⟨by decide, by decide, by decide, by decide, by decide, by decide, by decide⟩

/-- C6 amended: for strings with distinct lowercase normalisations, both
nonempty, and length ratio at least 0.3, the similarity is the difflib
SequenceMatcher ratio of the normalised strings when that ratio is at
most one half, and otherwise 0.3 times that ratio plus 0.7 times one
minus the Levenshtein distance of the 200-character truncations over the
longer truncation; the gate is the ratio exceeding one half, not the
word-set Jaccard being below one tenth. -/
theorem similarity_is_sequence_matcher_combination (a b : String)
    (ha : a ≠ "") (hb : b ≠ "")
    (hne : pyLower (pyStrip a) ≠ pyLower (pyStrip b))
    (hl1 : (pyLower (pyStrip a)).length ≠ 0)
    (hl2 : (pyLower (pyStrip b)).length ≠ 0)
    (hr : ¬ ((((min (pyLower (pyStrip a)).length (pyLower (pyStrip b)).length : ℕ) : ℚ) /
        ((max (pyLower (pyStrip a)).length (pyLower (pyStrip b)).length : ℕ) : ℚ)) < 3/10)) :
    calculateTextSimilarity a b = amendedSimilarityCombination a b := by
  simp only [calculateTextSimilarity, amendedSimilarityCombination]
  rw [if_neg (by push_neg; exact ⟨ha, hb⟩), if_neg hne,
    if_neg (by push_neg; exact ⟨hl1, hl2⟩), if_neg hr]

/-- Witness: the amended similarity equation applied at the concrete pair
ab and ba. -/
theorem similarity_is_sequence_matcher_combination_witness :
    calculateTextSimilarity "ab" "ba" = amendedSimilarityCombination "ab" "ba" :=
  similarity_is_sequence_matcher_combination "ab" "ba" (by decide) (by decide)
    (by decide) (by decide) (by decide) (by decide)

theorem acceptLoop_mem (simf : String → String → ℚ) (θ : ℚ) :
    ∀ (l : List (String × ℕ)) (u : List String) (p : List ℕ) (s : String),
      s ∈ acceptLoop simf θ l u p → s ∈ u ∨ s ∈ l.map Prod.fst := by
  intro l
  induction l with
  | nil => intro u p s hs; exact Or.inl hs
  | cons ti rest ih =>
    intro u p s hs
    obtain ⟨t, i⟩ := ti
    simp only [acceptLoop] at hs
    by_cases hp : i ∈ p
    · rw [if_pos hp] at hs
      rcases ih u p s hs with h | h
      · exact Or.inl h
      · exact Or.inr (by simpa using Or.inr h)
    · rw [if_neg hp] at hs
      by_cases hd : u.any (fun u2 => decide (simf t u2 ≥ θ)) = true
      · rw [if_pos hd] at hs
        rcases ih u p s hs with h | h
        · exact Or.inl h
        · exact Or.inr (by simpa using Or.inr h)
      · rw [if_neg hd] at hs
        rcases ih _ _ s hs with h | h
        · rcases List.mem_append.mp h with h2 | h2
          · exact Or.inl h2
          · have : s = t := by simpa using h2
            exact Or.inr (by simp [this])
        · exact Or.inr (by simpa using Or.inr h)

theorem enumTexts_map_fst (l : List String) :
    (enumTexts l).map Prod.fst = l := by
  simp only [enumTexts, List.map_map]
  have : (Prod.fst ∘ fun p : ℕ × String => (p.2, p.1)) = Prod.snd := rfl
  rw [this, List.enum_map_snd]

theorem deduplicateTexts_mem (simf : String → String → ℚ)
    (texts : List String) (θ : ℚ) (h2 : 2 ≤ texts.length) :
    ∀ s ∈ deduplicateTexts simf texts θ,
      s ∈ (texts.map pyStrip).filter (fun t => 3 ≤ t.length) := by
  intro s hs
  have hlen : ¬ texts.length ≤ 1 := by omega
  simp only [deduplicateTexts, if_neg hlen] at hs
  by_cases hf : (texts.map pyStrip).filter (fun t => 3 ≤ t.length) = []
  · rw [if_pos hf] at hs
    cases hs
  · rw [if_neg hf] at hs
    rcases acceptLoop_mem simf θ _ _ _ s hs with h | h
    · cases h
    · have hperm : List.Perm
          ((List.insertionSort lenIdxLE
              (enumTexts ((texts.map pyStrip).filter (fun t => 3 ≤ t.length)))).map Prod.fst)
          ((enumTexts ((texts.map pyStrip).filter (fun t => 3 ≤ t.length))).map Prod.fst) :=
        (List.perm_insertionSort lenIdxLE _).map Prod.fst
      have := hperm.mem_iff.mp h
      rwa [enumTexts_map_fst] at this

/-- C10 counterexample: a singleton input list is returned untouched by
deduplicate_texts_optimized, so the one-character string survives even
though its stripped form is shorter than three characters; fed to the
video aggregation it would appear verbatim in the combined text. -/
theorem short_text_survives_singleton_dedup :
    deduplicateTextsOptimized ["a"] (85/100) = ["a"] ∧
    (pyStrip "a").length < 3 := by
  refine ⟨by decide, by decide⟩

/-- C10 amended: input lists with at most one element are returned
unchanged (so a lone short text survives); whenever the input holds at
least two texts, every string whose stripped form is shorter than three
characters is dropped, and every output string has length at least
three. -/
theorem dedup_short_text_policy (texts : List String) (threshold : ℚ) :
    (texts.length ≤ 1 → deduplicateTextsOptimized texts threshold = texts) ∧
    (2 ≤ texts.length →
      ∀ s ∈ deduplicateTextsOptimized texts threshold, 3 ≤ s.length) := by
  constructor
  · intro h1
    simp [deduplicateTextsOptimized, deduplicateTexts, if_pos h1]
  · intro h2 s hs
    have := deduplicateTexts_mem calculateTextSimilarity texts threshold h2 s hs
    have hmem := List.mem_filter.mp this
    simpa using hmem.2

/-- Witness: the policy applied to a concrete three-element input, with
the short middle text dropped and the surviving first text of length at
least three. -/
theorem dedup_short_text_policy_witness :
    3 ≤ ("abcd" : String).length :=
  (dedup_short_text_policy ["abcd", "xy", "efgh"] (85/100)).2 (by decide)
    "abcd" (by decide)

theorem evictWhile_append (maxSize : ℕ) :
    ∀ l : List CEntry, (evictWhile maxSize l).1 ++ (evictWhile maxSize l).2.1 = l := by
  intro l
  induction l with
  | nil =>
    simp only [evictWhile]
    split <;> rfl
  | cons e rest ih =>
    simp only [evictWhile]
    by_cases h : maxSize ≤ (e :: rest).length
    · rw [if_pos h]
      simpa using ih
    · rw [if_neg h]
      rfl

theorem evictWhile_remaining_lt (maxSize : ℕ) :
    ∀ l : List CEntry, (evictWhile maxSize l).2.2 = false →
      (evictWhile maxSize l).2.1.length < maxSize := by
  intro l
  induction l with
  | nil =>
    intro h
    simp only [evictWhile] at h ⊢
    by_cases h0 : maxSize = 0
    · rw [if_pos h0] at h
      cases h
    · rw [if_neg h0]
      simpa using Nat.pos_of_ne_zero h0
  | cons e rest ih =>
    intro h
    simp only [evictWhile] at h ⊢
    by_cases hle : maxSize ≤ (e :: rest).length
    · rw [if_pos hle] at h ⊢
      exact ih h
    · rw [if_neg hle] at h ⊢
      simpa using Nat.lt_of_not_le hle

theorem evictWhile_of_lt (maxSize : ℕ) (l : List CEntry)
    (h : l.length < maxSize) : evictWhile maxSize l = ([], l, false) := by
  cases l with
  | nil =>
    have h0 : maxSize ≠ 0 := by
      simp at h
      omega
    simp [evictWhile, h0]
  | cons e rest =>
    have h2 : rest.length + 1 < maxSize := by simpa using h
    have h3 : ¬ maxSize ≤ (e :: rest).length := by
      simp
      omega
    rw [evictWhile, if_neg h3]

theorem evictWhile_evicted_head (maxSize : ℕ) (l : List CEntry)
    (hlen : l.length ≤ maxSize) :
    (evictWhile maxSize l).1 = [] ∨
      ∃ x t, l = x :: t ∧ (evictWhile maxSize l).1 = [x] := by
  cases l with
  | nil =>
    left
    simp only [evictWhile]
    split <;> rfl
  | cons x t =>
    by_cases h : maxSize ≤ (x :: t).length
    · right
      refine ⟨x, t, rfl, ?_⟩
      have hlt : t.length < maxSize := by
        simp at h hlen
        omega
      rw [evictWhile, if_pos h, evictWhile_of_lt maxSize t hlt]
    · left
      rw [evictWhile, if_neg h]

theorem evictWhile_raised_nil (maxSize : ℕ) :
    ∀ l : List CEntry, (evictWhile maxSize l).2.2 = true →
      (evictWhile maxSize l).2.1 = [] := by
  intro l
  induction l with
  | nil =>
    intro h
    simp only [evictWhile]
    split <;> rfl
  | cons e rest ih =>
    intro h
    simp only [evictWhile] at h ⊢
    by_cases hle : maxSize ≤ (e :: rest).length
    · rw [if_pos hle] at h ⊢
      exact ih h
    · rw [if_neg hle] at h
      cases h

theorem cacheInv_get (maxSize : ℕ) (ttl now : ℚ) (key : String)
    (s : CacheState) (h : CacheInv maxSize s) :
    CacheInv maxSize (cacheGet ttl now key s).2 := by
  obtain ⟨hlen, hsort, hclk⟩ := h
  simp only [cacheGet]
  cases hf : s.entries.find? (fun e => e.key = key) with
  | none => exact ⟨hlen, hsort, hclk⟩
  | some e =>
    dsimp only
    by_cases hexp : now - e.timestamp > ttl
    · rw [if_pos hexp]
      refine ⟨le_trans (List.length_filter_le _ _) hlen,
        hsort.sublist (List.filter_sublist _), ?_⟩
      intro e2 he2
      exact hclk e2 (List.mem_of_mem_filter he2)
    · rw [if_neg hexp]
      have hmem : e ∈ s.entries := List.mem_of_find?_eq_some hf
      have hkey : e.key = key := by
        have := List.find?_some hf
        simpa using this
      refine ⟨?_, ?_, ?_⟩
      · have hlt : (s.entries.filter (fun e2 => e2.key ≠ key)).length <
            s.entries.length := by
          refine List.length_filter_lt_length_iff_exists.mpr ⟨e, hmem, ?_⟩
          simp [hkey]
        simp only [List.length_append, List.length_cons, List.length_nil]
        omega
      · rw [List.pairwise_append]
        refine ⟨hsort.sublist (List.filter_sublist _),
          List.pairwise_singleton _ _, ?_⟩
        intro a ha b hb
        have hb2 : b = { e with lastUse := s.clock } := by simpa using hb
        rw [hb2]
        exact le_of_lt (hclk a (List.mem_of_mem_filter ha))
      · intro e2 he2
        rcases List.mem_append.mp he2 with h2 | h2
        · exact Nat.lt_succ_of_lt (hclk _ (List.mem_of_mem_filter h2))
        · have he3 : e2 = { e with lastUse := s.clock } := by simpa using h2
          rw [he3]
          exact Nat.lt_succ_self _

theorem cacheInv_put (maxSize : ℕ) (now : ℚ) (key : String) (v : ℕ)
    (s : CacheState) (h : CacheInv maxSize s) :
    CacheInv maxSize (cachePut maxSize now key v s) := by
  obtain ⟨hlen, hsort, hclk⟩ := h
  simp only [cachePut]
  have happ := evictWhile_append maxSize s.entries
  have hsub : List.Sublist (evictWhile maxSize s.entries).2.1 s.entries := by
    conv_rhs => rw [← happ]
    exact List.sublist_append_right _ _
  cases hb : (evictWhile maxSize s.entries).2.2 with
  | true =>
    have hnil := evictWhile_raised_nil maxSize s.entries hb
    rw [if_pos rfl, hnil]
    exact ⟨by simp, by simp, by simp⟩
  | false =>
    have hrem := evictWhile_remaining_lt maxSize s.entries hb
    rw [if_neg (by simp)]
    by_cases hin : (evictWhile maxSize s.entries).2.1.any (fun e => e.key = key) = true
    · rw [if_pos hin]
      have hflast : ∀ e : CEntry,
          (if e.key = key then { e with data := v, timestamp := now } else e).lastUse =
            e.lastUse := by
        intro e
        by_cases hk : e.key = key <;> simp [hk]
      refine ⟨?_, ?_, ?_⟩
      · simpa using le_of_lt hrem
      · rw [List.pairwise_map]
        refine ((hsort.sublist hsub)).imp ?_
        intro a b hab
        rw [hflast, hflast]
        exact hab
      · intro e2 he2
        rcases List.mem_map.mp he2 with ⟨a, ha, hfa⟩
        rw [← hfa, hflast]
        exact hclk a (hsub.subset ha)
    · rw [if_neg hin]
      refine ⟨?_, ?_, ?_⟩
      · simp only [List.length_append, List.length_cons, List.length_nil]
        omega
      · rw [List.pairwise_append]
        refine ⟨hsort.sublist hsub, List.pairwise_singleton _ _, ?_⟩
        intro a ha b hb2
        have hb3 : b = (⟨key, v, now, s.clock⟩ : CEntry) := by simpa using hb2
        rw [hb3]
        exact le_of_lt (hclk a (hsub.subset ha))
      · intro e2 he2
        rcases List.mem_append.mp he2 with h2 | h2
        · exact Nat.lt_succ_of_lt (hclk _ (hsub.subset h2))
        · have he3 : e2 = (⟨key, v, now, s.clock⟩ : CEntry) := by simpa using h2
          rw [he3]
          exact Nat.lt_succ_self _

theorem cacheInv_clearExpired (maxSize : ℕ) (ttl now : ℚ) (s : CacheState)
    (h : CacheInv maxSize s) :
    CacheInv maxSize (cacheClearExpired ttl now s) := by
  obtain ⟨hlen, hsort, hclk⟩ := h
  refine ⟨le_trans (List.length_filter_le _ _) hlen,
    hsort.sublist (List.filter_sublist _), ?_⟩
  intro e2 he2
  exact hclk e2 (List.mem_of_mem_filter he2)

theorem cacheInv_step (maxSize : ℕ) (ttl : ℚ) (s : CacheState) (op : CacheOp)
    (h : CacheInv maxSize s) : CacheInv maxSize (cacheStep maxSize ttl s op) := by
  cases op with
  | get now key => exact cacheInv_get maxSize ttl now key s h
  | put now key v => exact cacheInv_put maxSize now key v s h
  | clearExpired now => exact cacheInv_clearExpired maxSize ttl now s h

theorem cacheInv_run (maxSize : ℕ) (ttl : ℚ) (ops : List CacheOp) :
    CacheInv maxSize (cacheRun maxSize ttl ops) := by
  have hinit : CacheInv maxSize cacheInit := by
    refine ⟨by simp [cacheInit], by simp [cacheInit], by simp [cacheInit]⟩
  have hstep : ∀ s, CacheInv maxSize s →
      CacheInv maxSize (ops.foldl (cacheStep maxSize ttl) s) := by
    induction ops with
    | nil => intro s hs; exact hs
    | cons op rest ih =>
      intro s hs
      exact ih _ (cacheInv_step maxSize ttl s op hs)
  exact hstep cacheInit hinit

/-- C2: along every operation sequence the cache never holds more than
max_size entries, and any entry evicted for capacity by a put issued at
the reached state is least recently used there: its ghost last-use time
(set at initial insertion and refreshed by get hits) is at most that of
every entry currently stored. -/
theorem cache_size_bounded_and_eviction_is_lru (maxSize : ℕ) (ttl : ℚ)
    (ops : List CacheOp) :
    (cacheRun maxSize ttl ops).entries.length ≤ maxSize ∧
    (∀ e ∈ (evictWhile maxSize (cacheRun maxSize ttl ops).entries).1,
      ∀ e2 ∈ (cacheRun maxSize ttl ops).entries, e.lastUse ≤ e2.lastUse) := by
  obtain ⟨hlen, hsort, hclk⟩ := cacheInv_run maxSize ttl ops
  refine ⟨hlen, ?_⟩
  intro e he e2 he2
  rcases evictWhile_evicted_head maxSize _ hlen with h | ⟨x, t, hxt, hev⟩
  · rw [h] at he
    cases he
  · rw [hev] at he
    have hex : e = x := by simpa using he
    subst hex
    rw [hxt] at he2 hsort
    rcases List.mem_cons.mp he2 with h2 | h2
    · rw [h2]
    · exact (List.pairwise_cons.mp hsort).1 e2 h2

/-- Witness: the size bound and LRU eviction applied to a concrete run at
capacity one where the second put evicts the first entry. -/
theorem cache_size_bounded_and_eviction_is_lru_witness :
    (⟨"b", 2, 1, 1⟩ : CEntry).lastUse ≤ (⟨"b", 2, 1, 1⟩ : CEntry).lastUse :=
  (cache_size_bounded_and_eviction_is_lru 1 10
      [.put 0 "a" 1, .put 1 "b" 2]).2 ⟨"b", 2, 1, 1⟩ (by decide)
    ⟨"b", 2, 1, 1⟩ (by decide)

theorem dropWhile_dropWhile (p : Char → Bool) :
    ∀ l : List Char, List.dropWhile p (List.dropWhile p l) = List.dropWhile p l := by
  intro l
  induction l with
  | nil => rfl
  | cons c rest ih =>
    rw [List.dropWhile_cons]
    by_cases h : p c = true
    · rw [if_pos h]
      exact ih
    · rw [if_neg h, List.dropWhile_cons, if_neg h]

theorem stripped_of_dropWhile_eq (p : Char → Bool) (x : List Char)
    (hx : List.dropWhile p x = x) :
    List.dropWhile p ((List.dropWhile p x.reverse).reverse) =
      (List.dropWhile p x.reverse).reverse := by
  cases hyc : (List.dropWhile p x.reverse).reverse with
  | nil => rfl
  | cons c y2 =>
    have hsplit : x = (c :: y2) ++ (List.takeWhile p x.reverse).reverse := by
      conv_lhs => rw [← List.reverse_reverse x,
        ← List.takeWhile_append_dropWhile p x.reverse]
      rw [List.reverse_append, hyc]
    have hpc : ¬ p c = true := by
      intro hc2
      have h2 := hx
      rw [hsplit, List.cons_append, List.dropWhile_cons, if_pos hc2] at h2
      have hlen := congrArg List.length h2
      have hle : (List.dropWhile p
          (y2 ++ (List.takeWhile p x.reverse).reverse)).length ≤
            (y2 ++ (List.takeWhile p x.reverse).reverse).length :=
        (List.dropWhile_sublist _).length_le
      simp at hlen hle
      omega
    rw [List.dropWhile_cons, if_neg hpc]

theorem pyStripList_idem (l : List Char) :
    pyStripList (pyStripList l) = pyStripList l := by
  have h1 : List.dropWhile pyIsSpace (pyStripList l) = pyStripList l :=
    stripped_of_dropWhile_eq pyIsSpace (List.dropWhile pyIsSpace l)
      (dropWhile_dropWhile pyIsSpace l)
  show ((List.dropWhile pyIsSpace (pyStripList l)).reverse.dropWhile pyIsSpace).reverse =
    pyStripList l
  rw [h1]
  show (((((l.dropWhile pyIsSpace).reverse.dropWhile pyIsSpace).reverse).reverse).dropWhile
    pyIsSpace).reverse = pyStripList l
  rw [List.reverse_reverse, dropWhile_dropWhile]
  rfl

theorem pyStrip_idem (s : String) : pyStrip (pyStrip s) = pyStrip s := by
  show (⟨pyStripList (pyStripList s.data)⟩ : String) = ⟨pyStripList s.data⟩
  rw [pyStripList_idem]

theorem map_self_of_fixed {α : Type} (f : α → α) :
    ∀ l : List α, (∀ x ∈ l, f x = x) → l.map f = l := by
  intro l
  induction l with
  | nil => intro _; rfl
  | cons x rest ih =>
    intro h
    rw [List.map_cons, h x (by simp), ih (fun y hy => h y (by simp [hy]))]

theorem acceptLoop_decomp (simf : String → String → ℚ) (θ : ℚ) :
    ∀ (l : List (String × ℕ)) (u : List String) (p : List ℕ),
      ∃ w, acceptLoop simf θ l u p = u ++ w ∧ List.Sublist w (l.map Prod.fst) := by
  intro l
  induction l with
  | nil =>
    intro u p
    exact ⟨[], by simp [acceptLoop], by simp⟩
  | cons ti rest ih =>
    intro u p
    obtain ⟨t, i⟩ := ti
    simp only [acceptLoop]
    by_cases hp : i ∈ p
    · rw [if_pos hp]
      obtain ⟨w, hw, hsub⟩ := ih u p
      exact ⟨w, hw, hsub.trans (List.sublist_cons_self _ _)⟩
    · rw [if_neg hp]
      by_cases hd : u.any (fun u2 => decide (simf t u2 ≥ θ)) = true
      · rw [if_pos hd]
        obtain ⟨w, hw, hsub⟩ := ih u p
        exact ⟨w, hw, hsub.trans (List.sublist_cons_self _ _)⟩
      · rw [if_neg hd]
        obtain ⟨w, hw, hsub⟩ := ih (u ++ [t]) (p ++ [i])
        refine ⟨t :: w, by rw [hw, List.append_assoc]; rfl, ?_⟩
        simpa using hsub.cons₂ t

theorem acceptLoop_pairwise (simf : String → String → ℚ) (θ : ℚ) :
    ∀ (l : List (String × ℕ)) (u : List String) (p : List ℕ),
      List.Pairwise (fun a b => simf b a < θ) u →
      List.Pairwise (fun a b => simf b a < θ) (acceptLoop simf θ l u p) := by
  intro l
  induction l with
  | nil => intro u p hu; exact hu
  | cons ti rest ih =>
    intro u p hu
    obtain ⟨t, i⟩ := ti
    simp only [acceptLoop]
    by_cases hp : i ∈ p
    · rw [if_pos hp]
      exact ih u p hu
    · rw [if_neg hp]
      by_cases hd : u.any (fun u2 => decide (simf t u2 ≥ θ)) = true
      · rw [if_pos hd]
        exact ih u p hu
      · rw [if_neg hd]
        refine ih (u ++ [t]) (p ++ [i]) ?_
        rw [List.pairwise_append]
        refine ⟨hu, List.pairwise_singleton _ _, ?_⟩
        intro a ha b hb
        have hb2 : b = t := by simpa using hb
        have hall : ∀ x ∈ u, simf t x < θ := by simpa using hd
        rw [hb2]
        exact hall a ha

theorem pairwise_lenIdx_enumFrom :
    ∀ (l : List String) (n : ℕ),
      List.Pairwise (fun a b : String => b.length ≤ a.length) l →
      List.Pairwise lenIdxLE
        ((List.enumFrom n l).map (fun p => (p.2, p.1))) := by
  intro l
  induction l with
  | nil => intro n _; simp
  | cons x rest ih =>
    intro n hp
    rw [List.enumFrom_cons, List.map_cons, List.pairwise_cons]
    constructor
    · intro q hq
      rcases List.mem_map.mp hq with ⟨⟨i, t⟩, hmem, hq2⟩
      obtain ⟨hle, _, hidx⟩ := List.mem_enumFrom hmem
      have htr : t ∈ rest := by
        rw [hidx]
        exact List.getElem_mem _
      have hlen : t.length ≤ x.length :=
        (List.pairwise_cons.mp hp).1 t htr
      rw [← hq2]
      show t.length < x.length ∨ (x.length = t.length ∧ n ≤ i)
      rcases lt_or_eq_of_le hlen with h | h
      · exact Or.inl h
      · exact Or.inr ⟨h.symm, by omega⟩
    · exact ih (n + 1) (List.pairwise_cons.mp hp).2

theorem acceptLoop_id (simf : String → String → ℚ) (θ : ℚ) :
    ∀ (rest done : List String) (n : ℕ) (processed : List ℕ),
      List.Pairwise (fun a b => simf b a < θ) (done ++ rest) →
      (∀ i ∈ processed, i < n) →
      acceptLoop simf θ ((List.enumFrom n rest).map (fun p => (p.2, p.1)))
        done processed = done ++ rest := by
  intro rest
  induction rest with
  | nil =>
    intro done n processed _ _
    simp [acceptLoop]
  | cons t rest2 ih =>
    intro done n processed hpw hproc
    rw [List.enumFrom_cons, List.map_cons]
    simp only [acceptLoop]
    have hnp : ¬ n ∈ processed := fun h => absurd (hproc n h) (by omega)
    rw [if_neg hnp]
    have hcross : ∀ a ∈ done, simf t a < θ := by
      intro a ha
      exact (List.pairwise_append.mp hpw).2.2 a ha t (by simp)
    have hany : ¬ done.any (fun u2 => decide (simf t u2 ≥ θ)) = true := by
      rw [Bool.not_eq_true, List.any_eq_false]
      intro a ha
      simp only [decide_eq_true_eq, not_le]
      exact hcross a ha
    rw [if_neg hany]
    have hpw2 : List.Pairwise (fun a b => simf b a < θ) ((done ++ [t]) ++ rest2) := by
      rw [List.append_assoc]
      simpa using hpw
    have hproc2 : ∀ i ∈ processed ++ [n], i < n + 1 := by
      intro i hi
      rcases List.mem_append.mp hi with h | h
      · exact Nat.lt_succ_of_lt (hproc i h)
      · have : i = n := by simpa using h
        omega
    rw [ih (done ++ [t]) (n + 1) (processed ++ [n]) hpw2 hproc2,
      List.append_assoc]
    rfl

theorem dedup_output_structure (simf : String → String → ℚ)
    (texts : List String) (θ : ℚ) (h2 : ¬ texts.length ≤ 1)
    (hf : ¬ (texts.map pyStrip).filter (fun s => 3 ≤ s.length) = []) :
    List.Pairwise (fun a b : String => b.length ≤ a.length)
        (deduplicateTexts simf texts θ) ∧
      List.Pairwise (fun a b => simf b a < θ) (deduplicateTexts simf texts θ) := by
  simp only [deduplicateTexts, if_neg h2, if_neg hf]
  constructor
  · obtain ⟨w, hw, hsub⟩ := acceptLoop_decomp simf θ
      (List.insertionSort lenIdxLE
        (enumTexts ((texts.map pyStrip).filter (fun s => 3 ≤ s.length)))) [] []
    rw [hw, List.nil_append]
    have hsorted := List.sorted_insertionSort lenIdxLE
      (enumTexts ((texts.map pyStrip).filter (fun s => 3 ≤ s.length)))
    have hmapped : List.Pairwise (fun a b : String => b.length ≤ a.length)
        ((List.insertionSort lenIdxLE
          (enumTexts ((texts.map pyStrip).filter (fun s => 3 ≤ s.length)))).map
            Prod.fst) := by
      rw [List.pairwise_map]
      refine hsorted.imp ?_
      intro a b hab
      rcases hab with h | ⟨h, _⟩
      · exact le_of_lt h
      · exact le_of_eq h.symm
    exact hmapped.sublist hsub
  · exact acceptLoop_pairwise simf θ _ [] [] (by simp)

theorem dedup_of_short (simf : String → String → ℚ) (l : List String)
    (θ : ℚ) (h : l.length ≤ 1) : deduplicateTexts simf l θ = l := by
  simp [deduplicateTexts, if_pos h]

theorem dedup_idempotent_general (simf : String → String → ℚ)
    (texts : List String) (θ : ℚ) :
    deduplicateTexts simf (deduplicateTexts simf texts θ) θ =
      deduplicateTexts simf texts θ := by
  by_cases h1 : texts.length ≤ 1
  · rw [dedup_of_short simf texts θ h1]
    exact dedup_of_short simf texts θ h1
  · by_cases hf : (texts.map pyStrip).filter (fun s => 3 ≤ s.length) = []
    · have heq : deduplicateTexts simf texts θ = [] := by
        simp only [deduplicateTexts, if_neg h1, if_pos hf]
      rw [heq]
      exact dedup_of_short simf [] θ (by simp)
    · have h2 : 2 ≤ texts.length := by omega
      have hmem := deduplicateTexts_mem simf texts θ h2
      obtain ⟨hlensort, hpw⟩ := dedup_output_structure simf texts θ h1 hf
      set ys := deduplicateTexts simf texts θ with hysdef
      by_cases hys : ys.length ≤ 1
      · exact dedup_of_short simf ys θ hys
      · have hfix : ∀ s ∈ ys, pyStrip s = s ∧ 3 ≤ s.length := by
          intro s hs
          have := List.mem_filter.mp (hmem s hs)
          rcases List.mem_map.mp this.1 with ⟨t, _, ht⟩
          refine ⟨?_, by simpa using this.2⟩
          rw [← ht, pyStrip_idem]
        have hmapid : ys.map pyStrip = ys :=
          map_self_of_fixed pyStrip _ (fun x hx => (hfix x hx).1)
        have hfilterid :
            (ys.map pyStrip).filter (fun s => 3 ≤ s.length) = ys := by
          rw [hmapid]
          exact List.filter_eq_self.mpr
            (fun a ha => by simpa using (hfix a ha).2)
        have hnonnil :
            ¬ (ys.map pyStrip).filter (fun s => 3 ≤ s.length) = [] := by
          rw [hfilterid]
          intro hcon
          rw [hcon] at hys
          simp at hys
        have hsortid : List.insertionSort lenIdxLE (enumTexts ys) =
            enumTexts ys :=
          List.Sorted.insertionSort_eq (pairwise_lenIdx_enumFrom ys 0 hlensort)
        have hysnil : ¬ ys = [] := by
          intro hcon
          rw [hcon] at hys
          simp at hys
        calc deduplicateTexts simf ys θ
            = acceptLoop simf θ
                (List.insertionSort lenIdxLE (enumTexts ys)) [] [] := by
              simp only [deduplicateTexts, if_neg hys, hfilterid, if_neg hysnil]
          _ = acceptLoop simf θ
                ((List.enumFrom 0 ys).map (fun p => (p.2, p.1))) [] [] := by
              rw [hsortid]
              rfl
          _ = [] ++ ys :=
              acceptLoop_id simf θ ys [] 0 [] (by simpa using hpw) (by simp)
          _ = ys := List.nil_append ys

/-- C7: cross-frame text deduplication is idempotent: applying
deduplicate_texts_optimized twice with the same threshold returns the
same list as applying it once. -/
theorem dedup_idempotent (texts : List String) (threshold : ℚ) :
    deduplicateTextsOptimized (deduplicateTextsOptimized texts threshold)
        threshold = deduplicateTextsOptimized texts threshold :=
  dedup_idempotent_general calculateTextSimilarity texts threshold

theorem lexLE_antisymm (p q : ℤ × ℤ) (h1 : lexLE p q) (h2 : lexLE q p) :
    p = q := by
  rcases h1 with h | ⟨he, hle⟩
  · rcases h2 with h2 | ⟨he2, _⟩
    · exact absurd (h.trans h2) (lt_irrefl _)
    · rw [he2] at h
      exact absurd h (lt_irrefl _)
  · rcases h2 with h2 | ⟨he2, hle2⟩
    · rw [he] at h2
      exact absurd h2 (lt_irrefl _)
    · exact Prod.ext he (le_antisymm hle hle2)

theorem foldl_min_mem (xs : List ℤ) :
    ∀ x : ℤ, xs.foldl min x ∈ x :: xs := by
  induction xs with
  | nil => intro x; simp
  | cons y ys ih =>
    intro x
    rw [List.foldl_cons]
    rcases List.mem_cons.mp (ih (min x y)) with h | h
    · rcases min_choice x y with hm | hm <;> simp [h.trans hm]
    · simp [h]

theorem foldl_min_le (xs : List ℤ) :
    ∀ x : ℤ, ∀ a ∈ x :: xs, xs.foldl min x ≤ a := by
  induction xs with
  | nil =>
    intro x a ha
    have : a = x := by simpa using ha
    simp [this]
  | cons y ys ih =>
    intro x a ha
    rw [List.foldl_cons]
    rcases List.mem_cons.mp ha with h | h
    · subst h
      exact le_trans (ih (min a y) (min a y) (by simp)) (min_le_left a y)
    · rcases List.mem_cons.mp h with h2 | h2
      · subst h2
        exact le_trans (ih (min x a) (min x a) (by simp)) (min_le_right x a)
      · exact ih (min x y) a (by simp [h2])

theorem pyMinInt_mem (l : List ℤ) (h : l ≠ []) : pyMinInt l ∈ l := by
  cases l with
  | nil => exact absurd rfl h
  | cons x xs => exact foldl_min_mem xs x

theorem pyMinInt_le (l : List ℤ) : ∀ a ∈ l, pyMinInt l ≤ a := by
  cases l with
  | nil => intro a ha; cases ha
  | cons x xs => exact foldl_min_le xs x

theorem pyMinInt_perm (l1 l2 : List ℤ) (hp : List.Perm l1 l2) :
    pyMinInt l1 = pyMinInt l2 := by
  by_cases h : l1 = []
  · subst h
    rw [hp.symm.eq_nil]
  · have h2 : l2 ≠ [] := fun hc => h (by rw [hc] at hp; exact hp.eq_nil)
    exact le_antisymm
      (pyMinInt_le l1 _ (hp.mem_iff.mpr (pyMinInt_mem l2 h2)))
      (pyMinInt_le l2 _ (hp.mem_iff.mp (pyMinInt_mem l1 h)))

theorem foldl_max_mem (xs : List ℤ) :
    ∀ x : ℤ, xs.foldl max x ∈ x :: xs := by
  induction xs with
  | nil => intro x; simp
  | cons y ys ih =>
    intro x
    rw [List.foldl_cons]
    rcases List.mem_cons.mp (ih (max x y)) with h | h
    · rcases max_choice x y with hm | hm <;> simp [h.trans hm]
    · simp [h]

theorem foldl_max_ge (xs : List ℤ) :
    ∀ x : ℤ, ∀ a ∈ x :: xs, a ≤ xs.foldl max x := by
  induction xs with
  | nil =>
    intro x a ha
    have : a = x := by simpa using ha
    simp [this]
  | cons y ys ih =>
    intro x a ha
    rw [List.foldl_cons]
    rcases List.mem_cons.mp ha with h | h
    · subst h
      exact le_trans (le_max_left a y) (ih (max a y) (max a y) (by simp))
    · rcases List.mem_cons.mp h with h2 | h2
      · subst h2
        exact le_trans (le_max_right x a) (ih (max x a) (max x a) (by simp))
      · exact ih (max x y) a (by simp [h2])

theorem pyMaxInt_mem (l : List ℤ) (h : l ≠ []) : pyMaxInt l ∈ l := by
  cases l with
  | nil => exact absurd rfl h
  | cons x xs => exact foldl_max_mem xs x

theorem pyMaxInt_ge (l : List ℤ) : ∀ a ∈ l, a ≤ pyMaxInt l := by
  cases l with
  | nil => intro a ha; cases ha
  | cons x xs => exact foldl_max_ge xs x

theorem pyMaxInt_perm (l1 l2 : List ℤ) (hp : List.Perm l1 l2) :
    pyMaxInt l1 = pyMaxInt l2 := by
  by_cases h : l1 = []
  · subst h
    rw [hp.symm.eq_nil]
  · have h2 : l2 ≠ [] := fun hc => h (by rw [hc] at hp; exact hp.eq_nil)
    exact le_antisymm
      (pyMaxInt_ge l2 _ (hp.mem_iff.mp (pyMaxInt_mem l1 h)))
      (pyMaxInt_ge l1 _ (hp.mem_iff.mpr (pyMaxInt_mem l2 h2)))

theorem insertionSortInt_eq_of_perm (l1 l2 : List ℤ) (hp : List.Perm l1 l2) :
    List.insertionSort (· ≤ ·) l1 = List.insertionSort (· ≤ ·) l2 :=
  List.eq_of_perm_of_sorted
    ((List.perm_insertionSort _ l1).trans
      (hp.trans (List.perm_insertionSort _ l2).symm))
    (List.sorted_insertionSort _ l1) (List.sorted_insertionSort _ l2)

theorem detectColumns_perm (w1 w2 : List WordDetail) (hp : List.Perm w1 w2)
    (pw pl pr : ℤ) : detectColumns w1 pw pl pr = detectColumns w2 pw pl pr := by
  simp only [detectColumns]
  rw [insertionSortInt_eq_of_perm _ _
    (hp.flatMap_right (fun w => [w.bbox.x, w.bbox.x + w.bbox.width]))]

theorem looksLikeTable_perm (w1 w2 : List WordDetail) (hp : List.Perm w1 w2) :
    looksLikeTable w1 = looksLikeTable w2 := by
  simp only [looksLikeTable]
  rw [((hp.map (fun w => w.bbox.y)).dedup).length_eq,
    ((hp.map (fun w => w.bbox.x)).dedup).length_eq]

theorem analyzeLayout_perm (w1 w2 : List WordDetail) (hp : List.Perm w1 w2) :
    analyzeLayout w1 = analyzeLayout w2 := by
  simp only [analyzeLayout]
  rw [hp.length_eq, pyMinInt_perm _ _ (hp.map (fun w => w.bbox.x)),
    pyMaxInt_perm _ _ (hp.map (fun w => w.bbox.x + w.bbox.width)),
    detectColumns_perm w1 w2 hp, looksLikeTable_perm w1 w2 hp]

theorem eq_of_perm_sorted_keyDistinct {α : Type} (key : α → ℤ × ℤ) :
    ∀ (l1 l2 : List α), List.Perm l1 l2 → List.Sorted (byKeyLE key) l1 →
      List.Sorted (byKeyLE key) l2 →
      List.Pairwise (fun a b => key a ≠ key b) l1 → l1 = l2 := by
  intro l1
  induction l1 with
  | nil =>
    intro l2 hp _ _ _
    exact (hp.symm.eq_nil).symm
  | cons a t1 ih =>
    intro l2 hp hs1 hs2 hd
    cases l2 with
    | nil => simpa using hp.eq_nil
    | cons b t2 =>
      have hab : a = b := by
        by_contra hne
        have hbmem : b ∈ a :: t1 := hp.mem_iff.mpr (by simp)
        have hamem : a ∈ b :: t2 := hp.mem_iff.mp (by simp)
        have hb1 : b ∈ t1 := by
          rcases List.mem_cons.mp hbmem with h | h
          · exact absurd h.symm hne
          · exact h
        have ha2 : a ∈ t2 := by
          rcases List.mem_cons.mp hamem with h | h
          · exact absurd h hne
          · exact h
        have h1 : byKeyLE key a b := (List.sorted_cons.mp hs1).1 b hb1
        have h2 : byKeyLE key b a := (List.sorted_cons.mp hs2).1 a ha2
        exact absurd (lexLE_antisymm _ _ h1 h2)
          ((List.pairwise_cons.mp hd).1 b hb1)
      subst hab
      rw [ih t2 hp.cons_inv (List.sorted_cons.mp hs1).2
        (List.sorted_cons.mp hs2).2 (List.pairwise_cons.mp hd).2]

theorem insertionSort_byKey_eq_of_perm {α : Type} (key : α → ℤ × ℤ)
    (l1 l2 : List α) (hp : List.Perm l1 l2)
    (hd : List.Pairwise (fun a b => key a ≠ key b) l1) :
    List.insertionSort (byKeyLE key) l1 = List.insertionSort (byKeyLE key) l2 := by
  apply eq_of_perm_sorted_keyDistinct key
  · exact (List.perm_insertionSort _ l1).trans
      (hp.trans (List.perm_insertionSort _ l2).symm)
  · exact List.sorted_insertionSort _ l1
  · exact List.sorted_insertionSort _ l2
  · exact ((List.perm_insertionSort (byKeyLE key) l1).pairwise_iff
      (fun h => Ne.symm h)).mpr hd

/-- C8 counterexample: two words with identical (y, x) sort keys but
different texts land in one block whose text follows the input order of
the stable sort, so the two orderings of the same word set produce the
different outputs A B and B A. -/
theorem layout_not_permutation_invariant :
    List.Perm
      [(⟨"A", 1, ⟨0, 0, 10, 10⟩, []⟩ : WordDetail), ⟨"B", 1, ⟨0, 0, 10, 10⟩, []⟩]
      [(⟨"B", 1, ⟨0, 0, 10, 10⟩, []⟩ : WordDetail), ⟨"A", 1, ⟨0, 0, 10, 10⟩, []⟩] ∧
    processOCRResult .ltrTtb
      [⟨"A", 1, ⟨0, 0, 10, 10⟩, []⟩, ⟨"B", 1, ⟨0, 0, 10, 10⟩, []⟩] = "A B" ∧
    processOCRResult .ltrTtb
      [⟨"B", 1, ⟨0, 0, 10, 10⟩, []⟩, ⟨"A", 1, ⟨0, 0, 10, 10⟩, []⟩] = "B A" ∧
    processOCRResult .ltrTtb
        [⟨"A", 1, ⟨0, 0, 10, 10⟩, []⟩, ⟨"B", 1, ⟨0, 0, 10, 10⟩, []⟩] ≠
      processOCRResult .ltrTtb
        [⟨"B", 1, ⟨0, 0, 10, 10⟩, []⟩, ⟨"A", 1, ⟨0, 0, 10, 10⟩, []⟩] := by
  refine ⟨by decide, by decide, by decide, by decide⟩

/-- C8 amended: layout reconstruction from word details alone is
order-independent for every reading order provided no two words share the
same (y, x) sort key: on key-distinct word lists, any permutation yields
the same output text.  With tied keys the stable sort preserves input
order, so permutations can differ. -/
theorem process_ocr_result_perm_invariant (ro : ReadingOrder)
    (l1 l2 : List WordDetail) (hp : List.Perm l1 l2)
    (hd : List.Pairwise (fun w v => wordKey w ≠ wordKey v) l1) :
    processOCRResult ro l1 = processOCRResult ro l2 := by
  by_cases hnil : l1 = []
  · subst hnil
    rw [hp.symm.eq_nil]
  · have hnil2 : ¬ l2 = [] := fun hc => hnil (by rw [hc] at hp; exact hp.eq_nil)
    simp only [processOCRResult, if_neg hnil, if_neg hnil2]
    rw [analyzeLayout_perm l1 l2 hp]
    have hgrp : groupWordsIntoBlocks l1 = groupWordsIntoBlocks l2 := by
      simp only [groupWordsIntoBlocks]
      rw [insertionSort_byKey_eq_of_perm wordKey l1 l2 hp hd]
    rw [hgrp]

/-- Witness: permutation invariance applied to two concrete words with
distinct keys, listed in both orders. -/
theorem process_ocr_result_perm_invariant_witness :
    processOCRResult .ltrTtb
        [(⟨"A", 1, ⟨0, 0, 10, 10⟩, []⟩ : WordDetail), ⟨"B", 1, ⟨0, 40, 10, 10⟩, []⟩] =
      processOCRResult .ltrTtb
        [⟨"B", 1, ⟨0, 40, 10, 10⟩, []⟩, ⟨"A", 1, ⟨0, 0, 10, 10⟩, []⟩] :=
  process_ocr_result_perm_invariant .ltrTtb
    [⟨"A", 1, ⟨0, 0, 10, 10⟩, []⟩, ⟨"B", 1, ⟨0, 40, 10, 10⟩, []⟩]
    [⟨"B", 1, ⟨0, 40, 10, 10⟩, []⟩, ⟨"A", 1, ⟨0, 0, 10, 10⟩, []⟩]
    (by decide) (by decide)

end TextRecognize
